import Mathlib

/-!
Verification of the memory-management subsystem of the Stratos-2 kernel
(`src/kernel/src/memory.rs`): the quota-partitioned user arena
(`AppTable`, `register_app`, `unregister_app`, `app_alloc`, `app_dealloc`,
`app_stats`) and the instrumented kernel heap (`kalloc`, `kdealloc`,
`heap_stats`).

Machine integers (`usize`) are modelled as `Nat`; the source's
`saturating_sub`/`saturating_add` coincide with `Nat` subtraction/addition.
Raw pointers are modelled as `Nat` addresses (`arena_base + offset`); the
null pointer returned on failure is modelled as `Option.none`.
Rust `panic!` (the `Layout::from_size_align(..).unwrap()` calls) is
modelled by `Except Unit` wrappers around the pure operations.
-/

namespace Stratos

/-- Round `n` up to the next multiple of `a` (the source computes
`(n + (a-1)) & !(a-1)` for the power-of-two `a = USER_ARENA_ALIGN`;
for powers of two the two formulas agree). -/
def alignUp (n a : Nat) : Nat := ((n + a - 1) / a) * a

/-- Rust `usize::is_power_of_two` via the `n & (n-1) == 0` characterisation. -/
def isPow2 (n : Nat) : Bool := n != 0 && (n &&& (n - 1)) == 0

/-- Validity condition of `core::alloc::Layout::from_size_align(size, align)`:
`align` is a power of two and `size`, rounded up to a multiple of `align`,
does not overflow `isize` (x86-64: `isize::MAX = 2^63 - 1`). -/
def layoutValid (size align : Nat) : Bool :=
  isPow2 align && size ≤ (2 ^ 63 - 1) - (align - 1)

/-- Weighted sum over a list (the common shape of the byte-sum and the
region-counting arguments below). -/
def wsum (w : α → Nat) : List α → Nat
  | [] => 0
  | x :: l => w x + wsum w l

/-- Sum of the sizes (second components) of a list of `(addr, size)` blocks. -/
def sumSnd (l : List (Nat × Nat)) : Nat := wsum Prod.snd l

/-- Modelled from the spec: the external `linked_list_allocator::Heap`
dependency (not part of this repository's sources) — "a first-fit free-list
allocator returning the first sufficiently large free block".  `holes` is
the list of free blocks, scanned in order; `allocd` is ghost bookkeeping of
the blocks handed out, used only to state the caller's
size-must-match-the-allocation contract on deallocation. -/
structure Heap where
  bottom : Nat
  size : Nat
  holes : List (Nat × Nat)
  allocd : List (Nat × Nat)
deriving DecidableEq, Repr

namespace Heap

/-- Source `Heap::init(bottom, size)`: one hole covering the whole range. -/
def init (bottom size : Nat) : Heap :=
  { bottom := bottom, size := size, holes := [(bottom, size)], allocd := [] }

/-- Source `Heap::free()`: total bytes in the free list. -/
def freeBytes (h : Heap) : Nat := sumSnd h.holes

/-- Source `Heap::used()`: the allocator's own used accounting (size minus free). -/
def usedBytes (h : Heap) : Nat := h.size - h.freeBytes

/-- First-fit scan of the hole list: split the first hole that can hold an
`align`-aligned block of `size` bytes into (front padding, block, back
remainder); returns the updated hole list and the block's address. -/
def allocGo : List (Nat × Nat) → Nat → Nat → Option (List (Nat × Nat) × Nat)
  | [], _, _ => none
  | (a, hs) :: rest, size, align =>
    let p := alignUp a align
    if p + size ≤ a + hs then
      let front : List (Nat × Nat) := if p = a then [] else [(a, p - a)]
      let backsz := a + hs - (p + size)
      let back : List (Nat × Nat) := if backsz = 0 then [] else [(p + size, backsz)]
      some (front ++ back ++ rest, p)
    else
      match allocGo rest size align with
      | some (l, q) => some ((a, hs) :: l, q)
      | none => none

/-- Source `Heap::allocate_first_fit`. -/
def allocFirstFit (h : Heap) (size align : Nat) : Option (Heap × Nat) :=
  match allocGo h.holes size align with
  | some (holes', p) =>
      some ({ h with holes := holes', allocd := (p, size) :: h.allocd }, p)
  | none => none

/-- Remove one occurrence of a block from a list (ghost bookkeeping). -/
def removeOne : List (Nat × Nat) → Nat × Nat → List (Nat × Nat)
  | [], _ => []
  | b :: rest, x => if b = x then rest else b :: removeOne rest x

/-- Source `Heap::deallocate`: the block returns to the free list.  (A block that
was never allocated corrupts the real allocator — undefined behaviour; the
model simply inserts it, and reachability predicates restrict to
contract-respecting calls where that matters.) -/
def dealloc (h : Heap) (ptr size : Nat) : Heap :=
  { h with holes := (ptr, size) :: h.holes, allocd := removeOne h.allocd (ptr, size) }

end Heap

/-- Source `HeapStats` (kernel heap counters). -/
structure HeapStats where
  used : Nat
  free : Nat
  total : Nat
  peak_used : Nat
  alloc_count : Nat
  dealloc_count : Nat
deriving DecidableEq, Repr

def HeapStats.zero : HeapStats := ⟨0, 0, 0, 0, 0, 0⟩

/-- Source `AppHeapStats` (per-app counters; same shape as `HeapStats`). -/
structure AppHeapStats where
  used : Nat
  free : Nat
  total : Nat
  peak_used : Nat
  alloc_count : Nat
  dealloc_count : Nat
deriving DecidableEq, Repr

def AppHeapStats.zero : AppHeapStats := ⟨0, 0, 0, 0, 0, 0⟩

abbrev AppId := Nat

def HEAP_SIZE : Nat := 256 * 1024
def USER_ARENA_SIZE : Nat := 1024 * 1024
def USER_ARENA_ALIGN : Nat := 4096
def MAX_APPS : Nat := 32

/-- Source `AppSlot`.  Here `inited` renders the source field `initialized`;
`start = 0` renders the cleared slot's null pointer; the `heap` field of a
non-`inited` slot is stale (`MaybeUninit` in the source) and never read. -/
structure AppSlot where
  id : Option AppId
  start : Nat
  size : Nat
  offset : Nat
  heap : Heap
  stats : AppHeapStats
  inited : Bool
deriving DecidableEq, Repr

def AppSlot.uninit : AppSlot :=
  { id := none, start := 0, size := 0, offset := 0,
    heap := { bottom := 0, size := 0, holes := [], allocd := [] },
    stats := AppHeapStats.zero, inited := false }

/-- Source `AppTable`.  Here `free_regions` models the source's
`[(usize, usize); MAX_APPS]` array together with `free_count`: the list's
elements are the array's first `free_count` entries in order. -/
structure AppTable where
  arena_base : Nat
  arena_size : Nat
  bump_offset : Nat
  free_regions : List (Nat × Nat)
  slots : List AppSlot
deriving DecidableEq, Repr

/-- The table right after `init_user_arena` (boot-time initialisation). -/
def init_table (base : Nat) : AppTable :=
  { arena_base := base, arena_size := USER_ARENA_SIZE, bump_offset := 0,
    free_regions := [], slots := List.replicate MAX_APPS AppSlot.uninit }

/-- Source `AppTable::find_slot_by_id`: index of the first slot with
`s.id == Some(id) && s.initialized`. -/
def find_slot_by_id (slots : List AppSlot) (id : AppId) : Option Nat :=
  slots.findIdx? (fun s => s.id == some id && s.inited)

/-- Source `AppTable::find_free_slot`: index of the first non-initialized slot. -/
def find_free_slot (slots : List AppSlot) : Option Nat :=
  slots.findIdx? (fun s => !s.inited)

/-- Index of the first free region with `size >= bytes`
(the scan in `AppTable::alloc_region`). -/
def findFit (l : List (Nat × Nat)) (bytes : Nat) : Option Nat :=
  l.findIdx? (fun r => bytes ≤ r.2)

/-- The source's swap-remove on the free-region array:
`free_count -= 1; free_regions[i] = free_regions[free_count]`. -/
def swapRemove (l : List (Nat × Nat)) (i : Nat) : List (Nat × Nat) :=
  if l.isEmpty then [] else (l.set i (l.getLastD (0, 0))).dropLast

/-- Source `AppTable::arena_free_for_new_regions`. -/
def arena_free_for_new_regions (t : AppTable) : Nat :=
  t.free_regions.foldl (fun acc r => acc + r.2) (t.arena_size - t.bump_offset)

/-- Source `AppTable::alloc_region(bytes)`: the first free region with `size >= bytes`
is swap-removed whole, but the returned grant is `(ptr, bytes, off)` — only
`bytes` of it; otherwise carve `bytes` from the 4096-aligned bump pointer.
Returns `(updated table, ptr, size, offset)`. -/
def alloc_region (t : AppTable) (bytes : Nat) :
    Option (AppTable × Nat × Nat × Nat) :=
  match findFit t.free_regions bytes with
  | some i =>
      let r := t.free_regions.getD i (0, 0)
      some ({ t with free_regions := swapRemove t.free_regions i },
            t.arena_base + r.1, bytes, r.1)
  | none =>
      let alignedOff := alignUp t.bump_offset USER_ARENA_ALIGN
      let e := alignedOff + bytes
      if e > t.arena_size then none
      else some ({ t with bump_offset := e }, t.arena_base + alignedOff, bytes, alignedOff)

/-- Source `AppTable::free_region(off, size)`: append unless the list is full. -/
def free_region (t : AppTable) (off size : Nat) : AppTable :=
  if t.free_regions.length < MAX_APPS then
    { t with free_regions := t.free_regions ++ [(off, size)] }
  else t

/-- The slot record `register_app` installs for a fresh registration:
heap initialized over the granted region, stats `{used 0, free size,
total size}` (source lines 254–271). -/
def mkSlot (app_id : AppId) (region_ptr region_size region_off : Nat) :
    AppSlot :=
  { id := some app_id, start := region_ptr, size := region_size,
    offset := region_off,
    heap := Heap.init region_ptr region_size,
    stats := { used := 0, free := region_size, total := region_size,
               peak_used := 0, alloc_count := 0, dealloc_count := 0 },
    inited := true }

/-- Source `register_app`. -/
def register_app (t : AppTable) (app_id : AppId) (quota_bytes : Nat) :
    AppTable × Bool :=
  if (find_slot_by_id t.slots app_id).isSome then (t, true)
  else if arena_free_for_new_regions t < quota_bytes then (t, false)
  else
    match alloc_region t quota_bytes with
    | none => (t, false)
    | some (t1, region_ptr, region_size, region_off) =>
      match find_free_slot t1.slots with
      | none => (t1, false)
      | some i =>
        ({ t1 with slots :=
             t1.slots.set i (mkSlot app_id region_ptr region_size region_off) },
         true)

/-- Slot reset performed by `unregister_app` (source lines 284–289):
`id`, `start`, `size`, `offset`, `stats` cleared and `initialized = false`;
the heap field is left stale. -/
def clearSlot (s : AppSlot) : AppSlot :=
  { s with id := none, start := 0, size := 0, offset := 0,
           stats := AppHeapStats.zero, inited := false }

/-- Source `unregister_app`. -/
def unregister_app (t : AppTable) (app_id : AppId) : AppTable × Bool :=
  match find_slot_by_id t.slots app_id with
  | none => (t, false)
  | some i =>
      let s := t.slots.getD i AppSlot.uninit
      let t1 := { t with slots := t.slots.set i (clearSlot s) }
      (free_region t1 s.offset s.size, true)

/-- Source `app_alloc` (the pure part, after the `Layout` unwrap). -/
def app_alloc (t : AppTable) (app_id : AppId) (size align : Nat) :
    AppTable × Option Nat :=
  match find_slot_by_id t.slots app_id with
  | none => (t, none)
  | some i =>
      let s := t.slots.getD i AppSlot.uninit
      if s.stats.free < size then (t, none)
      else
        match s.heap.allocFirstFit size align with
        | none => (t, none)
        | some (h', p) =>
            let used' := s.stats.used + size
            let st' : AppHeapStats :=
              { s.stats with
                used := used',
                free := s.size - used',
                alloc_count := s.stats.alloc_count + 1,
                peak_used := max s.stats.peak_used used' }
            let s' : AppSlot := { s with heap := h', stats := st' }
            ({ t with slots := t.slots.set i s' }, some p)

/-- Source `app_dealloc` (the pure part, after the `Layout` unwrap). -/
def app_dealloc (t : AppTable) (app_id : AppId) (ptr size _align : Nat) :
    AppTable × Bool :=
  match find_slot_by_id t.slots app_id with
  | none => (t, false)
  | some i =>
      let s := t.slots.getD i AppSlot.uninit
      if ptr < s.start ∨ s.start + s.size ≤ ptr then (t, false)
      else
        let h' := s.heap.dealloc ptr size
        let used' := s.stats.used - size
        let st' : AppHeapStats :=
          { s.stats with
            used := used',
            free := s.size - used',
            dealloc_count := s.stats.dealloc_count + 1 }
        let s' : AppSlot := { s with heap := h', stats := st' }
        ({ t with slots := t.slots.set i s' }, true)

/-- Source `app_stats` (recomputes and writes back the cached stats). -/
def app_stats (t : AppTable) (app_id : AppId) :
    AppTable × Option AppHeapStats :=
  match find_slot_by_id t.slots app_id with
  | none => (t, none)
  | some i =>
      let s := t.slots.getD i AppSlot.uninit
      let freeNow := s.heap.freeBytes
      let st : AppHeapStats :=
        { s.stats with free := freeNow, total := s.size, used := s.size - freeNow }
      ({ t with slots := t.slots.set i { s with stats := st } }, some st)

/-- The kernel heap (`ALLOCATOR` plus `KHEAP_COUNTERS`). -/
structure KernelState where
  heap : Heap
  counters : HeapStats
deriving DecidableEq, Repr

/-- Source `kalloc` (the pure part, after the `Layout` unwrap). -/
def kalloc (k : KernelState) (size align : Nat) : KernelState × Option Nat :=
  match k.heap.allocFirstFit size align with
  | none => (k, none)
  | some (h', p) =>
      let c := k.counters
      let used' := c.used + size
      let c' : HeapStats :=
        { c with
          used := used',
          free := c.free - size,
          total := HEAP_SIZE,
          alloc_count := c.alloc_count + 1,
          peak_used := max c.peak_used used' }
      ({ heap := h', counters := c' }, some p)

/-- Source `kdealloc` (the pure part, after the `Layout` unwrap). -/
def kdealloc (k : KernelState) (ptr size _align : Nat) : KernelState :=
  let c' : HeapStats :=
    { k.counters with
      used := k.counters.used - size,
      free := k.counters.free + size,
      total := HEAP_SIZE,
      dealloc_count := k.counters.dealloc_count + 1 }
  { heap := k.heap.dealloc ptr size, counters := c' }

/-- Source `heap_stats`: recomputes `used`/`free` from the live allocator and sets
`total = used + free`. -/
def heap_stats (k : KernelState) : KernelState × HeapStats :=
  let used := k.heap.usedBytes
  let free := k.heap.freeBytes
  let c := { k.counters with used := used, free := free, total := used + free }
  ({ k with counters := c }, c)

/-- Source `kalloc` including the `Layout::from_size_align(..).unwrap()`:
`Except.error ()` models the panic on an invalid layout. -/
def kallocE (k : KernelState) (size align : Nat) :
    Except Unit (KernelState × Option Nat) :=
  if layoutValid size align then .ok (kalloc k size align) else .error ()

/-- Source `kdealloc` including the `Layout` unwrap (panic as `Except.error`). -/
def kdeallocE (k : KernelState) (ptr size align : Nat) :
    Except Unit KernelState :=
  if layoutValid size align then .ok (kdealloc k ptr size align) else .error ()

/-- Source `app_alloc` including the `Layout` unwrap (panic as `Except.error`). -/
def app_allocE (t : AppTable) (app_id : AppId) (size align : Nat) :
    Except Unit (AppTable × Option Nat) :=
  if layoutValid size align then .ok (app_alloc t app_id size align) else .error ()

/-- Source `app_dealloc` including the `Layout` unwrap (panic as `Except.error`). -/
def app_deallocE (t : AppTable) (app_id : AppId) (ptr size align : Nat) :
    Except Unit (AppTable × Bool) :=
  if layoutValid size align then .ok (app_dealloc t app_id ptr size align)
  else .error ()

/-- Does the byte at offset `off` of the arena lie inside region `r`? -/
def covers (off : Nat) (r : Nat × Nat) : Bool :=
  decide (r.1 ≤ off) && decide (off < r.1 + r.2)

/-- Weight 1 when region `r` owns offset `off`, else 0. -/
def coverW (off : Nat) (r : Nat × Nat) : Nat := if covers off r then 1 else 0

/-- All regions currently accounted for: the regions of the initialized
slots followed by the `free_regions` entries. -/
def region_list (t : AppTable) : List (Nat × Nat) :=
  (t.slots.filter (·.inited)).map (fun s => (s.offset, s.size)) ++ t.free_regions

/-- How many of the initialized slots' regions own offset `off`. -/
def slot_owners (off : Nat) (slots : List AppSlot) : Nat :=
  wsum (coverW off) ((slots.filter (·.inited)).map (fun s => (s.offset, s.size)))

/-- How many free-list entries own offset `off`. -/
def free_owners (off : Nat) (l : List (Nat × Nat)) : Nat := wsum (coverW off) l

/-- How many accounted regions own the byte at offset `off`. -/
def owners (t : AppTable) (off : Nat) : Nat :=
  wsum (coverW off) (region_list t)

/-- Contribution of one slot to `slot_owners`. -/
def slotW (off : Nat) (s : AppSlot) : Nat :=
  if s.inited then coverW off (s.offset, s.size) else 0

/-- Number of initialized slots. -/
def initCount (slots : List AppSlot) : Nat :=
  wsum (fun s => if s.inited then 1 else 0) slots

/-- Ghost list of blocks handed out by `app_alloc(id, ..)` and not yet
returned (empty for an unknown id). -/
def slotAllocd (t : AppTable) (id : AppId) : List (Nat × Nat) :=
  match find_slot_by_id t.slots id with
  | none => []
  | some i => (t.slots.getD i AppSlot.uninit).heap.allocd

/-- States reachable from a freshly initialized arena by any sequence of
the five public arena operations (no constraint on the arguments). -/
inductive Reach : AppTable → Prop
  | init (base : Nat) : Reach (init_table base)
  | register (t : AppTable) (id : AppId) (q : Nat) :
      Reach t → Reach (register_app t id q).1
  | unregister (t : AppTable) (id : AppId) :
      Reach t → Reach (unregister_app t id).1
  | alloc (t : AppTable) (id : AppId) (size align : Nat) :
      Reach t → Reach (app_alloc t id size align).1
  | dealloc (t : AppTable) (id : AppId) (ptr size align : Nat) :
      Reach t → Reach (app_dealloc t id ptr size align).1
  | stats (t : AppTable) (id : AppId) :
      Reach t → Reach (app_stats t id).1

/-- States reachable by contract-respecting call sequences: `app_alloc` and
`app_dealloc` are only invoked with a valid `Layout` (otherwise the real
call panics before touching the table), and `app_dealloc` only with a
`(ptr, size)` previously returned by `app_alloc` for the same id (the
documented size-must-match caller contract; a violating in-range call is
undefined behaviour in the source) — unless the call is a rejected one. -/
inductive ReachC : AppTable → Prop
  | init (base : Nat) : ReachC (init_table base)
  | register (t : AppTable) (id : AppId) (q : Nat) :
      ReachC t → ReachC (register_app t id q).1
  | unregister (t : AppTable) (id : AppId) :
      ReachC t → ReachC (unregister_app t id).1
  | alloc (t : AppTable) (id : AppId) (size align : Nat) :
      layoutValid size align = true →
      ReachC t → ReachC (app_alloc t id size align).1
  | dealloc (t : AppTable) (id : AppId) (ptr size align : Nat) :
      layoutValid size align = true →
      ((ptr, size) ∈ slotAllocd t id ∨ (app_dealloc t id ptr size align).2 = false) →
      ReachC t → ReachC (app_dealloc t id ptr size align).1
  | stats (t : AppTable) (id : AppId) :
      ReachC t → ReachC (app_stats t id).1

/-- Well-formedness of an initialized slot's private heap: it spans exactly
the granted region, and its free holes plus outstanding allocations
partition the region's bytes. -/
def SlotWF (s : AppSlot) : Prop :=
  s.heap.bottom = s.start ∧ s.heap.size = s.size ∧
  sumSnd s.heap.holes + sumSnd s.heap.allocd = s.size ∧
  (∀ b ∈ s.heap.holes, s.start ≤ b.1 ∧ b.1 + b.2 ≤ s.start + s.size) ∧
  (∀ b ∈ s.heap.allocd, s.start ≤ b.1 ∧ b.1 + b.2 ≤ s.start + s.size)

/-- Heap well-formedness of every initialized slot of the table. -/
def HeapInv (t : AppTable) : Prop :=
  ∀ s ∈ t.slots, s.inited = true → SlotWF s

/-- Region-accounting invariant: every arena offset is owned by at most one
accounted region, and offsets at or beyond the bump pointer by none. -/
def RegionInv (t : AppTable) : Prop :=
  (∀ off, owners t off ≤ 1) ∧ (∀ off, t.bump_offset ≤ off → owners t off = 0)

/-- Run a list of `register_app` calls in order (no unregistration). -/
def runRegs (t : AppTable) : List (AppId × Nat) → AppTable
  | [] => t
  | (id, q) :: rest => runRegs (register_app t id q).1 rest

/-- Every `register_app` call of the sequence, run in order, returns `true`. -/
def regsAllSucceed (t : AppTable) : List (AppId × Nat) → Bool
  | [] => true
  | (id, q) :: rest =>
      (register_app t id q).2 && regsAllSucceed (register_app t id q).1 rest

/-- Total of the quota arguments of a call sequence. -/
def sumQuota (calls : List (AppId × Nat)) : Nat := wsum Prod.snd calls

/-- Concrete arena base address used by the executable test traces
(any 4096-aligned value; the static buffer's address in the source). -/
def tBase : Nat := 1048576

/-- Trace for spec Scenario A: fresh arena. -/
def scnA0 : AppTable := init_table tBase

/-- Trace for spec Scenario A: `register_app(42, 65536)`. -/
def scnA1 : AppTable × Bool := register_app scnA0 42 65536

/-- Trace for spec Scenario A: `app_alloc(42, 4096, 8)`. -/
def scnA2 : AppTable × Option Nat := app_alloc scnA1.1 42 4096 8

/-- Trace for spec Scenario A: the returned pointer. -/
def scnA_ptr : Nat := scnA2.2.getD 0

/-- Trace for spec Scenario A: first `app_stats(42)`. -/
def scnA3 : AppTable × Option AppHeapStats := app_stats scnA2.1 42

/-- Trace for spec Scenario A: `app_dealloc(42, ptr, 4096, 8)`. -/
def scnA4 : AppTable × Bool := app_dealloc scnA3.1 42 scnA_ptr 4096 8

/-- Trace for spec Scenario A: second `app_stats(42)`. -/
def scnA5 : AppTable × Option AppHeapStats := app_stats scnA4.1 42

/-- Trace for spec Scenario A: `unregister_app(42)`. -/
def scnA6 : AppTable × Bool := unregister_app scnA5.1 42

/-- Trace for spec Scenario A: final `app_stats(42)`. -/
def scnA7 : AppTable × Option AppHeapStats := app_stats scnA6.1 42

/-- Reuse trace: register app 1 with 8192 bytes. -/
def ceR1 : AppTable := (register_app (init_table tBase) 1 8192).1

/-- Reuse trace: unregister app 1, freeing the region `(0, 8192)`. -/
def ceR2 : AppTable := (unregister_app ceR1 1).1

/-- Reuse trace: register app 2 with quota 4096, satisfied from the free
region `(0, 8192)`. -/
def ceR3 : AppTable := (register_app ceR2 2 4096).1

/-- Trace with one registered app (7, quota 4096) and no allocation. -/
def ceD1 : AppTable := (register_app (init_table tBase) 7 4096).1

/-- Registration calls for spec Scenario C: `MAX_APPS` distinct ids with
quota 1 each. -/
def exhCalls : List (AppId × Nat) := (List.range MAX_APPS).map (fun i => (i, 1))

/-- The table after spec Scenario C's first `MAX_APPS` registrations:
every slot is initialized. -/
def exhT : AppTable := runRegs (init_table tBase) exhCalls

theorem wsum_append (w : α → Nat) (l₁ l₂ : List α) :
    wsum w (l₁ ++ l₂) = wsum w l₁ + wsum w l₂ := by
  induction l₁ with
  | nil => simp [wsum]
  | cons x l ih => simp [wsum, ih]; omega

theorem wsum_getD_le (w : α → Nat) (l : List α) (i : Nat) (d : α)
    (h : i < l.length) : w (l.getD i d) ≤ wsum w l := by
  induction l generalizing i with
  | nil => simp at h
  | cons x l ih =>
    cases i with
    | zero => simp [wsum, List.getD]
    | succ j =>
      have := ih j (by simpa using h)
      simp only [List.getD_cons_succ, wsum]
      omega

theorem wsum_set (w : α → Nat) (l : List α) (i : Nat) (x d : α)
    (h : i < l.length) :
    wsum w (l.set i x) + w (l.getD i d) = wsum w l + w x := by
  induction l generalizing i with
  | nil => simp at h
  | cons y l ih =>
    cases i with
    | zero => simp [wsum, List.getD]; omega
    | succ j =>
      have := ih j (by simpa using h)
      simp only [List.set_cons_succ, List.getD_cons_succ, wsum]
      omega

theorem wsum_dropLast (w : α → Nat) (l : List α) (d : α) (h : l ≠ []) :
    wsum w l.dropLast + w (l.getLastD d) = wsum w l := by
  induction l with
  | nil => exact absurd rfl h
  | cons x l ih =>
    cases l with
    | nil => simp [wsum]
    | cons y l =>
      have := ih (by simp)
      simp only [List.dropLast_cons₂, wsum, List.getLastD_cons] at *
      omega

theorem getLastD_set (l : List α) (i : Nat) (d : α) (h : i < l.length) :
    (l.set i (l.getLastD d)).getLastD d = l.getLastD d := by
  induction l generalizing i d with
  | nil => simp at h
  | cons x l ih =>
    cases i with
    | zero =>
      cases l with
      | nil => simp
      | cons y l => simp [List.getLastD_cons]
    | succ j =>
      cases l with
      | nil => simp at h
      | cons y l =>
        have := ih j x (by simpa using h)
        simp only [List.set_cons_succ, List.getLastD_cons] at *
        exact this

theorem length_set_eq (l : List α) (i : Nat) (x : α) :
    (l.set i x).length = l.length := List.length_set l i x

theorem wsum_swapRemove (w : Nat × Nat → Nat) (l : List (Nat × Nat)) (i : Nat)
    (h : i < l.length) :
    wsum w (swapRemove l i) + w (l.getD i (0, 0)) = wsum w l := by
  have hne : l ≠ [] := by intro hl; subst hl; simp at h
  have hset : l.set i (l.getLastD (0, 0)) ≠ [] := by
    intro hl
    have := List.length_set l i (l.getLastD (0, 0))
    rw [hl] at this
    simp at this
    omega
  have h1 := wsum_dropLast w (l.set i (l.getLastD (0, 0))) (0, 0) hset
  have h2 := getLastD_set l i (0, 0) h
  have h3 := wsum_set w l i (l.getLastD (0, 0)) (0, 0) h
  have hsw : swapRemove l i = (l.set i (l.getLastD (0, 0))).dropLast := by
    unfold swapRemove
    simp [List.isEmpty_iff, hne]
  rw [hsw]
  rw [h2] at h1
  omega

theorem foldl_add_snd (l : List (Nat × Nat)) (n : Nat) :
    l.foldl (fun acc r => acc + r.2) n = n + sumSnd l := by
  induction l generalizing n with
  | nil => simp [sumSnd, wsum]
  | cons x l ih => simp [sumSnd, wsum, ih, List.foldl_cons]; omega

theorem arena_free_eq (t : AppTable) :
    arena_free_for_new_regions t =
      (t.arena_size - t.bump_offset) + sumSnd t.free_regions :=
  foldl_add_snd t.free_regions (t.arena_size - t.bump_offset)

theorem le_alignUp (n : Nat) {a : Nat} (ha : 0 < a) : n ≤ alignUp n a := by
  unfold alignUp
  rw [Nat.mul_comm]
  have hdm := Nat.div_add_mod (n + a - 1) a
  have hlt : (n + a - 1) % a < a := Nat.mod_lt _ ha
  omega

theorem alignUp_of_dvd {n a : Nat} (ha : 0 < a) (hd : a ∣ n) :
    alignUp n a = n := by
  obtain ⟨k, rfl⟩ := hd
  unfold alignUp
  rw [Nat.add_sub_assoc ha, Nat.mul_add_div ha, Nat.div_eq_of_lt (by omega)]
  ring

theorem dvd_alignUp (n : Nat) (a : Nat) : a ∣ alignUp n a :=
  Dvd.intro_left _ rfl

theorem findFit_some {l : List (Nat × Nat)} {q i : Nat}
    (h : findFit l q = some i) :
    i < l.length ∧ q ≤ (l.getD i (0, 0)).2 := by
  unfold findFit at h
  obtain ⟨hlt, hp, -⟩ := List.findIdx?_eq_some_iff_getElem.mp h
  refine ⟨hlt, ?_⟩
  have : l.getD i (0, 0) = l[i] := by
    simp [List.getD_eq_getElem?_getD, List.getElem?_eq_getElem hlt]
  rw [this]
  exact of_decide_eq_true hp

theorem findFit_none {l : List (Nat × Nat)} {q : Nat}
    (h : findFit l q = none) : ∀ r ∈ l, r.2 < q := by
  unfold findFit at h
  intro r hr
  have := List.findIdx?_eq_none_iff.mp h r hr
  simpa using this

theorem find_free_slot_of_all_inited {slots : List AppSlot}
    (h : slots.all (·.inited) = true) : find_free_slot slots = none := by
  unfold find_free_slot
  rw [List.findIdx?_eq_none_iff]
  intro x hx
  have := List.all_eq_true.mp h x hx
  simp [this]

theorem alloc_region_free_path {t : AppTable} {q i : Nat}
    (h : findFit t.free_regions q = some i) :
    alloc_region t q =
      some ({ t with free_regions := swapRemove t.free_regions i },
            t.arena_base + (t.free_regions.getD i (0, 0)).1, q,
            (t.free_regions.getD i (0, 0)).1) := by
  unfold alloc_region
  rw [h]

theorem alloc_region_bump_path {t : AppTable} {q : Nat}
    (h : findFit t.free_regions q = none)
    (h2 : alignUp t.bump_offset USER_ARENA_ALIGN + q ≤ t.arena_size) :
    alloc_region t q =
      some ({ t with bump_offset := alignUp t.bump_offset USER_ARENA_ALIGN + q },
            t.arena_base + alignUp t.bump_offset USER_ARENA_ALIGN, q,
            alignUp t.bump_offset USER_ARENA_ALIGN) := by
  unfold alloc_region
  rw [h]
  simp only []
  rw [if_neg (by omega)]

theorem alloc_region_some_le_free {t : AppTable} {q : Nat}
    (h : (alloc_region t q).isSome = true) :
    q ≤ arena_free_for_new_regions t := by
  rw [arena_free_eq]
  unfold alloc_region at h
  cases hf : findFit t.free_regions q with
  | some i =>
    obtain ⟨hlt, hq⟩ := findFit_some hf
    have := wsum_getD_le Prod.snd t.free_regions i (0, 0) hlt
    unfold sumSnd
    omega
  | none =>
    rw [hf] at h
    simp only [] at h
    by_cases hgt : alignUp t.bump_offset USER_ARENA_ALIGN + q > t.arena_size
    · rw [if_pos (by omega)] at h
      simp at h
    · have hle := le_alignUp t.bump_offset (a := USER_ARENA_ALIGN) (by decide)
      omega

theorem alloc_region_some_slots {t : AppTable} {q : Nat} {r}
    (h : alloc_region t q = some r) :
    r.1.slots = t.slots ∧ r.1.arena_size = t.arena_size ∧
    r.1.arena_base = t.arena_base ∧ t.bump_offset ≤ r.1.bump_offset := by
  unfold alloc_region at h
  cases hf : findFit t.free_regions q with
  | some i =>
    rw [hf] at h
    cases h
    simp
  | none =>
    rw [hf] at h
    simp only [] at h
    split at h
    · cases h
    · cases h
      have := le_alignUp t.bump_offset (a := USER_ARENA_ALIGN) (by decide)
      simp
      omega

/-- C9: re-registering a live id returns `true` and leaves the whole table
(slots, regions, free list, stats) unchanged, for any quota argument:
no space is consumed and no second slot is created. -/
theorem register_app_idempotent (t : AppTable) (id : AppId) (q : Nat)
    (h : (find_slot_by_id t.slots id).isSome = true) :
    register_app t id q = (t, true) := by
  unfold register_app
  rw [if_pos h]

/-- Witness for `register_app_idempotent`: a table with app 7 live,
re-registered with a different quota. -/
theorem register_app_idempotent_witness :
    (find_slot_by_id ceD1.slots 7).isSome = true ∧
    register_app ceD1 7 999 = (ceD1, true) :=
  ⟨by decide, register_app_idempotent ceD1 7 999 (by decide)⟩

/-- C10: the Scenario A trace.  From a fresh arena:
`register_app(42, 65536)` returns `true`; `app_alloc(42, 4096, 8)` returns
a non-null pointer; `app_stats(42)` reads
`{used 4096, free 61440, total 65536, peak 4096, allocs 1, deallocs 0}`;
`app_dealloc(42, ptr, 4096, 8)` returns `true`; `app_stats(42)` reads
`{used 0, free 65536, total 65536, peak 4096, allocs 1, deallocs 1}`;
`unregister_app(42)` returns `true`; `app_stats(42)` returns `none`. -/
theorem scenario_A_trace :
    scnA1.2 = true ∧
    scnA2.2.isSome = true ∧
    scnA3.2 = some ⟨4096, 61440, 65536, 4096, 1, 0⟩ ∧
    scnA4.2 = true ∧
    scnA5.2 = some ⟨0, 65536, 65536, 4096, 1, 1⟩ ∧
    scnA6.2 = true ∧
    scnA7.2 = none := by
  refine ⟨by decide, by decide, by decide, by decide, by decide, by decide, by decide⟩

/-- C1 counterexample: after registering and unregistering app 1 with
8192 bytes, `free_regions = [(0, 8192)]`; `register_app(2, 4096)` is then
satisfied from that entry, but the app's granted region — reported by
`app_stats(2).total` and returned to `free_regions` on unregister — is
only the 4096-byte quota, not the whole 8192-byte entry. -/
theorem grant_truncated_counterexample :
    ceR2.free_regions = [(0, 8192)] ∧
    (register_app ceR2 2 4096).2 = true ∧
    ((app_stats ceR3 2).2).map (·.total) = some 4096 ∧
    ¬ ((app_stats ceR3 2).2).map (·.total) = some 8192 ∧
    (unregister_app ceR3 2).1.free_regions = [(0, 4096)] := by
  refine ⟨by decide, by decide, by decide, by decide, by decide⟩

/-- C1 (amended): when `alloc_region` satisfies a request from
`free_regions`, the first entry with `size ≥ quota` is swap-removed whole
from the list, but the grant is only `quota` bytes at that entry's offset:
the granted size equals the quota (the entry's excess bytes are dropped,
tracked by no slot and no free-list entry). -/
theorem alloc_region_grants_only_quota (t : AppTable) (q i : Nat)
    (h : findFit t.free_regions q = some i) :
    q ≤ (t.free_regions.getD i (0, 0)).2 ∧
    alloc_region t q =
      some ({ t with free_regions := swapRemove t.free_regions i },
            t.arena_base + (t.free_regions.getD i (0, 0)).1, q,
            (t.free_regions.getD i (0, 0)).1) :=
  ⟨(findFit_some h).2, alloc_region_free_path h⟩

/-- Witness for `alloc_region_grants_only_quota` on the reuse trace: the
free entry `(0, 8192)` matches quota 4096 and only 4096 bytes are granted. -/
theorem alloc_region_grants_only_quota_witness :
    findFit ceR2.free_regions 4096 = some 0 ∧
    4096 ≤ (ceR2.free_regions.getD 0 (0, 0)).2 ∧
    alloc_region ceR2 4096 =
      some ({ ceR2 with free_regions := swapRemove ceR2.free_regions 0 },
            ceR2.arena_base + (ceR2.free_regions.getD 0 (0, 0)).1, 4096,
            (ceR2.free_regions.getD 0 (0, 0)).1) :=
  ⟨by decide, alloc_region_grants_only_quota ceR2 4096 0 (by decide)⟩

/-- C4 counterexample: app 7 is registered with a 4096-byte region starting
at address `tBase`, no `app_alloc` was ever performed (every slot's ghost
allocation list is empty), yet `app_dealloc(7, tBase, 16, 8)` — a pointer
never returned by `app_alloc` — returns `true`, not `false`. -/
theorem app_dealloc_accepts_unallocated_ptr_counterexample :
    (∀ s ∈ ceD1.slots, s.heap.allocd = []) ∧
    (app_dealloc ceD1 7 tBase 16 8).2 = true := by
  refine ⟨by decide, by decide⟩

/-- C4 (amended): `app_dealloc(id, ptr, size, align)` returns `false` (and
leaves the table unchanged) exactly when `id` has no live slot or `ptr`
lies outside that slot's region `[start, start + size)`; every in-range
pointer is accepted (returns `true`) regardless of whether it was ever
returned by `app_alloc`. -/
theorem app_dealloc_range_check_only (t : AppTable) (id : AppId)
    (ptr size align : Nat) :
    (find_slot_by_id t.slots id = none →
      app_dealloc t id ptr size align = (t, false)) ∧
    (∀ i, find_slot_by_id t.slots id = some i →
      (ptr < (t.slots.getD i AppSlot.uninit).start ∨
       (t.slots.getD i AppSlot.uninit).start +
         (t.slots.getD i AppSlot.uninit).size ≤ ptr) →
      app_dealloc t id ptr size align = (t, false)) ∧
    (∀ i, find_slot_by_id t.slots id = some i →
      (t.slots.getD i AppSlot.uninit).start ≤ ptr →
      ptr < (t.slots.getD i AppSlot.uninit).start +
        (t.slots.getD i AppSlot.uninit).size →
      (app_dealloc t id ptr size align).2 = true) := by
  refine ⟨?_, ?_, ?_⟩
  · intro h
    unfold app_dealloc
    rw [h]
  · intro i h hout
    unfold app_dealloc
    rw [h]
    simp only []
    rw [if_pos (by omega)]
  · intro i h hlo hhi
    unfold app_dealloc
    rw [h]
    simp only []
    rw [if_neg (by omega)]

/-- Witness for `app_dealloc_range_check_only`: unknown id 5 on the reuse
trace is rejected with the table unchanged; app 7's in-range pointer
(never allocated) is accepted. -/
theorem app_dealloc_range_check_only_witness :
    app_dealloc ceD1 5 tBase 16 8 = (ceD1, false) ∧
    (app_dealloc ceD1 7 tBase 16 8).2 = true :=
  ⟨(app_dealloc_range_check_only ceD1 5 tBase 16 8).1 (by decide),
   (app_dealloc_range_check_only ceD1 7 tBase 16 8).2.2 0 (by decide)
     (by decide) (by decide)⟩

/-- C6 counterexample: with `align = 3` (not a power of two) the
`Layout::from_size_align(..).unwrap()` at the top of `app_alloc` and
`kalloc` panics even though the id is unregistered and capacity is ample —
an invalid handle plus an invalid align aborts instead of returning
null. -/
theorem invalid_align_aborts_counterexample :
    app_allocE (init_table tBase) 0 16 3 = .error () ∧
    kallocE ⟨Heap.init 0 HEAP_SIZE, HeapStats.zero⟩ 16 3 = .error () :=
  ⟨rfl, rfl⟩

/-- C6 (amended): whenever `size`/`align` form a valid `Layout`, none of
`kalloc`, `kdealloc`, `app_alloc`, `app_dealloc` aborts — each returns its
pure result — and in particular an unknown id yields a null pointer or
`false`.  (`register_app`, `unregister_app` and `app_stats` build no
`Layout` and are total by construction; a `dealloc` whose size/align do
not match the allocation remains undefined behaviour, outside this
model.) -/
theorem valid_layout_no_abort (k : KernelState) (t : AppTable) (id : AppId)
    (ptr size align : Nat) (h : layoutValid size align = true) :
    kallocE k size align = .ok (kalloc k size align) ∧
    kdeallocE k ptr size align = .ok (kdealloc k ptr size align) ∧
    app_allocE t id size align = .ok (app_alloc t id size align) ∧
    app_deallocE t id ptr size align = .ok (app_dealloc t id ptr size align) ∧
    (find_slot_by_id t.slots id = none →
      app_alloc t id size align = (t, none) ∧
      app_dealloc t id ptr size align = (t, false)) := by
  refine ⟨?_, ?_, ?_, ?_, ?_⟩
  · unfold kallocE; rw [if_pos h]
  · unfold kdeallocE; rw [if_pos h]
  · unfold app_allocE; rw [if_pos h]
  · unfold app_deallocE; rw [if_pos h]
  · intro hn
    constructor
    · unfold app_alloc; rw [hn]
    · unfold app_dealloc; rw [hn]

/-- Witness for `valid_layout_no_abort`: a fresh arena and kernel heap with
the valid layout `(16, 8)` and the unregistered id 0. -/
theorem valid_layout_no_abort_witness :
    layoutValid 16 8 = true ∧
    app_allocE (init_table tBase) 0 16 8 =
      .ok (app_alloc (init_table tBase) 0 16 8) ∧
    app_alloc (init_table tBase) 0 16 8 = (init_table tBase, none) := by
  have h := valid_layout_no_abort ⟨Heap.init 0 HEAP_SIZE, HeapStats.zero⟩
    (init_table tBase) 0 0 16 8 (by decide)
  exact ⟨by decide, h.2.2.1, (h.2.2.2.2 (by decide)).1⟩

/-- C5: registering a fresh id while every slot is initialized fails, and
when byte space remains (the region reservation itself succeeds, quota at
least 1), the reserved region is not rolled back:
`arena_free_for_new_regions` is strictly smaller after the failed call. -/
theorem register_slot_exhaustion_no_rollback (t : AppTable) (id : AppId)
    (q : Nat)
    (hall : t.slots.all (·.inited) = true)
    (hid : find_slot_by_id t.slots id = none)
    (hq : 1 ≤ q)
    (halloc : (alloc_region t q).isSome = true) :
    (register_app t id q).2 = false ∧
    arena_free_for_new_regions (register_app t id q).1 <
      arena_free_for_new_regions t := by
  have hle := alloc_region_some_le_free halloc
  obtain ⟨r, hr⟩ := Option.isSome_iff_exists.mp halloc
  obtain ⟨t1, ptr, sz, off⟩ := r
  have hslots := (alloc_region_some_slots hr).1
  have hreg : register_app t id q = (t1, false) := by
    unfold register_app
    rw [hid]
    simp only [Option.isSome_none, Bool.false_eq_true, if_false]
    rw [if_neg (by omega), hr]
    simp only []
    rw [hslots, find_free_slot_of_all_inited hall]
  rw [hreg]
  refine ⟨rfl, ?_⟩
  unfold alloc_region at hr
  cases hf : findFit t.free_regions q with
  | some i =>
    rw [hf] at hr
    obtain ⟨hlt, hqe⟩ := findFit_some hf
    cases hr
    rw [arena_free_eq, arena_free_eq]
    have hsw := wsum_swapRemove Prod.snd t.free_regions i hlt
    simp only [sumSnd] at *
    omega
  | none =>
    rw [hf] at hr
    simp only [] at hr
    split at hr
    · cases hr
    · rename_i hguard
      cases hr
      rw [arena_free_eq, arena_free_eq]
      have hal := le_alignUp t.bump_offset (a := USER_ARENA_ALIGN) (by decide)
      simp only []
      omega

set_option maxRecDepth 40000 in
/-- Witness for `register_slot_exhaustion_no_rollback`: spec Scenario C —
after `MAX_APPS` distinct registrations with quota 1, the next distinct
registration (id 99, quota 1) fails and leaks its reserved region. -/
theorem register_slot_exhaustion_no_rollback_witness :
    exhT.slots.all (·.inited) = true ∧
    find_slot_by_id exhT.slots 99 = none ∧
    (alloc_region exhT 1).isSome = true ∧
    (register_app exhT 99 1).2 = false ∧
    arena_free_for_new_regions (register_app exhT 99 1).1 <
      arena_free_for_new_regions exhT := by
  have h := register_slot_exhaustion_no_rollback exhT 99 1
    (by decide) (by decide) (by decide) (by decide)
  exact ⟨by decide, by decide, by decide, h.1, h.2⟩

/-- C2 counterexample: the state reached by
`register_app(1, 8192); unregister_app(1); register_app(2, 4096)` has
`bump_offset = 8192`, but offset 4096 — inside `[0, bump_offset)` — is
owned by no initialized slot's region and no `free_regions` entry: the
8192-byte free entry was consumed for a 4096-byte grant and its tail was
dropped untracked. -/
theorem arena_untracked_gap_counterexample :
    Reach ceR3 ∧ 4096 < ceR3.bump_offset ∧ owners ceR3 4096 = 0 :=
  ⟨Reach.register _ 2 4096
      (Reach.unregister _ 1 (Reach.register _ 1 8192 (Reach.init tBase))),
   by decide, by decide⟩

/-- C3 counterexample: the two registrations `(1, quota 1)` then
`(2, quota USER_ARENA_SIZE - 1)` are all simultaneously live, their quotas
sum to exactly the arena size and their count is 2 ≤ `MAX_APPS`, yet the
second `register_app` returns `false`: the bump pointer is rounded up to a
4096-byte boundary, so the 1-byte grant consumes a whole page of carving
space. -/
theorem register_sequence_alignment_counterexample :
    sumQuota [(1, 1), (2, USER_ARENA_SIZE - 1)] ≤ USER_ARENA_SIZE ∧
    List.length [(1, 1), (2, USER_ARENA_SIZE - 1)] ≤ MAX_APPS ∧
    (register_app (register_app (init_table tBase) 1 1).1 2
      (USER_ARENA_SIZE - 1)).2 = false ∧
    regsAllSucceed (init_table tBase) [(1, 1), (2, USER_ARENA_SIZE - 1)] = false :=
  ⟨by decide, by decide, by decide, by decide⟩

theorem initCount_eq_length_of_all {l : List AppSlot}
    (h : ∀ x ∈ l, x.inited = true) : initCount l = l.length := by
  induction l with
  | nil => rfl
  | cons x l ih =>
    have hx := h x (by simp)
    have hl := ih (fun y hy => h y (by simp [hy]))
    simp only [initCount, wsum, hx, if_pos, List.length_cons] at *
    omega

theorem initCount_eq_length_of_none {l : List AppSlot}
    (h : find_free_slot l = none) : initCount l = l.length := by
  unfold find_free_slot at h
  have hall := List.findIdx?_eq_none_iff.mp h
  exact initCount_eq_length_of_all (fun x hx => by simpa using hall x hx)

theorem register_app_ro_success (t : AppTable) (id : AppId) (q : Nat)
    (hfr : t.free_regions = [])
    (hsz : t.arena_size = USER_ARENA_SIZE)
    (hal : USER_ARENA_ALIGN ∣ t.bump_offset)
    (hq : USER_ARENA_ALIGN ∣ q)
    (hfit : t.bump_offset + q ≤ USER_ARENA_SIZE)
    (hslot : initCount t.slots < t.slots.length) :
    (register_app t id q).2 = true ∧
    (register_app t id q).1.free_regions = [] ∧
    (register_app t id q).1.arena_size = USER_ARENA_SIZE ∧
    (register_app t id q).1.slots.length = t.slots.length ∧
    (register_app t id q).1.bump_offset ≤ t.bump_offset + q ∧
    USER_ARENA_ALIGN ∣ (register_app t id q).1.bump_offset ∧
    initCount (register_app t id q).1.slots ≤ initCount t.slots + 1 := by
  by_cases hlive : (find_slot_by_id t.slots id).isSome = true
  · rw [register_app_idempotent t id q hlive]
    dsimp only
    exact ⟨rfl, hfr, hsz, rfl, Nat.le_add_right _ _, hal, Nat.le_add_right _ _⟩
  · have hid : find_slot_by_id t.slots id = none := by
      cases h : find_slot_by_id t.slots id with
      | none => rfl
      | some i => rw [h] at hlive; simp at hlive
    obtain ⟨j, hj⟩ : ∃ j, find_free_slot t.slots = some j := by
      cases h : find_free_slot t.slots with
      | none => exact absurd (initCount_eq_length_of_none h) (by omega)
      | some j => exact ⟨j, rfl⟩
    have hjlt : j < t.slots.length := by
      unfold find_free_slot at hj
      exact (List.findIdx?_eq_some_iff_getElem.mp hj).1
    have hff : findFit t.free_regions q = none := by rw [hfr]; rfl
    have haru : alignUp t.bump_offset USER_ARENA_ALIGN = t.bump_offset :=
      alignUp_of_dvd (by decide) hal
    have hallocr : alloc_region t q =
        some ({ t with bump_offset := t.bump_offset + q },
              t.arena_base + t.bump_offset, q, t.bump_offset) := by
      have h := alloc_region_bump_path hff (by rw [haru]; omega)
      rw [haru] at h
      exact h
    have hfree : ¬ (arena_free_for_new_regions t < q) := by
      rw [arena_free_eq, hfr]
      simp only [sumSnd, wsum]
      omega
    have hres : register_app t id q =
        ({ t with
            bump_offset := t.bump_offset + q,
            slots := t.slots.set j
              (mkSlot id (t.arena_base + t.bump_offset) q t.bump_offset) },
         true) := by
      unfold register_app
      rw [hid]
      simp only [Option.isSome_none, Bool.false_eq_true, if_false]
      rw [if_neg hfree, hallocr]
      simp only []
      rw [hj]
    rw [hres]
    dsimp only
    refine ⟨rfl, hfr, hsz, List.length_set t.slots j _, Nat.le_refl _,
      Nat.dvd_add hal hq, ?_⟩
    have hset := wsum_set (fun s => if s.inited then 1 else 0) t.slots j
      (mkSlot id (t.arena_base + t.bump_offset) q t.bump_offset)
      AppSlot.uninit hjlt
    have hw : (fun (s : AppSlot) => if s.inited then 1 else 0)
        (mkSlot id (t.arena_base + t.bump_offset) q t.bump_offset) = 1 := rfl
    rw [hw] at hset
    simp only [initCount]
    omega

theorem regsAllSucceed_of_good (calls : List (AppId × Nat)) (t : AppTable)
    (n : Nat)
    (hfr : t.free_regions = [])
    (hsz : t.arena_size = USER_ARENA_SIZE)
    (hlen : t.slots.length = MAX_APPS)
    (hal : USER_ARENA_ALIGN ∣ t.bump_offset)
    (hcnt : initCount t.slots ≤ n)
    (hdvd : ∀ x ∈ calls, USER_ARENA_ALIGN ∣ x.2)
    (hsum : t.bump_offset + sumQuota calls ≤ USER_ARENA_SIZE)
    (hn : n + calls.length ≤ MAX_APPS) :
    regsAllSucceed t calls = true := by
  induction calls generalizing t n with
  | nil => rfl
  | cons c rest ih =>
    obtain ⟨id, q⟩ := c
    have hq := hdvd (id, q) (by simp)
    have hsum' : t.bump_offset + q + sumQuota rest ≤ USER_ARENA_SIZE := by
      have hc : sumQuota ((id, q) :: rest) = q + sumQuota rest := rfl
      omega
    have hslot : initCount t.slots < t.slots.length := by
      rw [hlen]
      simp only [List.length_cons] at hn
      omega
    have hs := register_app_ro_success t id q hfr hsz hal hq (by omega) hslot
    unfold regsAllSucceed
    rw [hs.1]
    simp only [Bool.true_and]
    exact ih (register_app t id q).1 (n + 1) hs.2.1 hs.2.2.1
      (by rw [hs.2.2.2.1, hlen]) hs.2.2.2.2.2.1 (by omega)
      (fun x hx => hdvd x (by simp [hx]))
      (by omega) (by simp only [List.length_cons] at hn; omega)

/-- C3 (amended): for every sequence of `register_app` calls — no
unregistration — whose quotas are all multiples of `USER_ARENA_ALIGN`
(4096), sum to at most the arena size, and whose length is at most
`MAX_APPS`, every `register_app` call in the sequence returns `true`. -/
theorem aligned_register_sequences_succeed (base : Nat)
    (calls : List (AppId × Nat))
    (hdvd : ∀ x ∈ calls, USER_ARENA_ALIGN ∣ x.2)
    (hsum : sumQuota calls ≤ USER_ARENA_SIZE)
    (hlen : calls.length ≤ MAX_APPS) :
    regsAllSucceed (init_table base) calls = true :=
  regsAllSucceed_of_good calls (init_table base) 0 rfl rfl
    (by simp [init_table]) (Dvd.intro 0 rfl)
    (by rw [show initCount (init_table base).slots = 0 from rfl])
    hdvd (by simpa [init_table] using hsum) (by simpa using hlen)

/-- Witness for `aligned_register_sequences_succeed`: two page-multiple
registrations within the arena budget both succeed. -/
theorem aligned_register_sequences_succeed_witness :
    (∀ x ∈ [((1 : AppId), 4096), ((2 : AppId), 8192)], USER_ARENA_ALIGN ∣ x.2) ∧
    sumQuota [((1 : AppId), 4096), ((2 : AppId), 8192)] ≤ USER_ARENA_SIZE ∧
    regsAllSucceed (init_table tBase) [((1 : AppId), 4096), ((2 : AppId), 8192)] = true :=
  ⟨by decide, by decide,
   aligned_register_sequences_succeed tBase [(1, 4096), (2, 8192)]
     (by decide) (by decide) (by decide)⟩

theorem covers_iff {off : Nat} {r : Nat × Nat} :
    covers off r = true ↔ r.1 ≤ off ∧ off < r.1 + r.2 := by
  simp [covers]

theorem coverW_le_one (off : Nat) (r : Nat × Nat) : coverW off r ≤ 1 := by
  unfold coverW
  split <;> omega

theorem coverW_eq_zero_of_lt {off : Nat} {r : Nat × Nat} (h : off < r.1) :
    coverW off r = 0 := by
  unfold coverW
  rw [if_neg]
  intro hc
  rw [covers_iff] at hc
  omega

theorem coverW_eq_zero_of_ge {off : Nat} {r : Nat × Nat} (h : r.1 + r.2 ≤ off) :
    coverW off r = 0 := by
  unfold coverW
  rw [if_neg]
  intro hc
  rw [covers_iff] at hc
  omega

theorem coverW_mono {off a b a' b' : Nat} (h1 : a ≤ a') (h2 : a' + b' ≤ a + b) :
    coverW off (a', b') ≤ coverW off (a, b) := by
  unfold coverW
  by_cases hc : covers off (a', b') = true
  · have hd : covers off (a, b) = true := by
      rw [covers_iff] at hc ⊢
      dsimp only at hc ⊢
      omega
    rw [if_pos hc, if_pos hd]
  · rw [if_neg hc]
    omega

theorem coverW_mono_pair {off q : Nat} {r : Nat × Nat} (h2 : q ≤ r.2) :
    coverW off (r.1, q) ≤ coverW off r := by
  obtain ⟨a, b⟩ := r
  exact coverW_mono (Nat.le_refl _) (by dsimp only at h2 ⊢; omega)

theorem wsum_eq_zero {w : α → Nat} {l : List α} (h : wsum w l = 0) :
    ∀ x ∈ l, w x = 0 := by
  induction l with
  | nil => intro x hx; simp at hx
  | cons y l ih =>
    simp only [wsum] at h
    intro x hx
    rcases List.mem_cons.mp hx with rfl | hx'
    · omega
    · exact ih (by omega) x hx'

theorem getD_mem {l : List α} {i : Nat} (h : i < l.length) (d : α) :
    l.getD i d ∈ l := by
  rw [List.getD_eq_getElem?_getD, List.getElem?_eq_getElem h]
  exact List.getElem_mem h

theorem getD_eq_getElem_of_lt {l : List α} {i : Nat} (h : i < l.length) (d : α) :
    l.getD i d = l[i] := by
  rw [List.getD_eq_getElem?_getD, List.getElem?_eq_getElem h]
  rfl

theorem owners_eq (t : AppTable) (off : Nat) :
    owners t off = slot_owners off t.slots + free_owners off t.free_regions :=
  wsum_append _ _ _

theorem slot_owners_cons (off : Nat) (x : AppSlot) (l : List AppSlot) :
    slot_owners off (x :: l) = slotW off x + slot_owners off l := by
  unfold slot_owners slotW
  by_cases hx : x.inited = true
  · simp [List.filter_cons, hx, wsum]
  · simp [List.filter_cons, hx]

theorem slot_owners_set (off : Nat) (l : List AppSlot) (i : Nat) (s' : AppSlot)
    (h : i < l.length) :
    slot_owners off (l.set i s') + slotW off (l.getD i AppSlot.uninit) =
      slot_owners off l + slotW off s' := by
  induction l generalizing i with
  | nil => simp at h
  | cons x l ih =>
    cases i with
    | zero =>
      simp only [List.set_cons_zero, List.getD_cons_zero, slot_owners_cons]
      omega
    | succ j =>
      have := ih j (by simpa using h)
      simp only [List.set_cons_succ, List.getD_cons_succ, slot_owners_cons]
      omega

theorem find_free_slot_some {slots : List AppSlot} {j : Nat}
    (h : find_free_slot slots = some j) :
    j < slots.length ∧ (slots.getD j AppSlot.uninit).inited = false := by
  unfold find_free_slot at h
  obtain ⟨hlt, hp, -⟩ := List.findIdx?_eq_some_iff_getElem.mp h
  refine ⟨hlt, ?_⟩
  rw [getD_eq_getElem_of_lt hlt]
  simpa using hp

theorem find_slot_by_id_some {slots : List AppSlot} {id : AppId} {i : Nat}
    (h : find_slot_by_id slots id = some i) :
    i < slots.length ∧ (slots.getD i AppSlot.uninit).id = some id ∧
      (slots.getD i AppSlot.uninit).inited = true := by
  unfold find_slot_by_id at h
  obtain ⟨hlt, hp, -⟩ := List.findIdx?_eq_some_iff_getElem.mp h
  rw [Bool.and_eq_true] at hp
  refine ⟨hlt, ?_, ?_⟩
  · rw [getD_eq_getElem_of_lt hlt]
    simpa [beq_iff_eq] using hp.1
  · rw [getD_eq_getElem_of_lt hlt]
    exact hp.2

theorem freshRegion_free_path (t : AppTable) (q i : Nat)
    (hf : findFit t.free_regions q = some i) (hinv : RegionInv t) :
    (∀ o, owners { t with free_regions := swapRemove t.free_regions i } o +
        coverW o ((t.free_regions.getD i (0, 0)).1, q) ≤ 1) ∧
    (∀ o, t.bump_offset ≤ o →
      owners { t with free_regions := swapRemove t.free_regions i } o +
        coverW o ((t.free_regions.getD i (0, 0)).1, q) = 0) := by
  obtain ⟨hlt, hq⟩ := findFit_some hf
  have hkey : ∀ o,
      owners { t with free_regions := swapRemove t.free_regions i } o +
        coverW o (t.free_regions.getD i (0, 0)) = owners t o := by
    intro o
    rw [owners_eq, owners_eq]
    have hsw : free_owners o (swapRemove t.free_regions i) +
        coverW o (t.free_regions.getD i (0, 0)) =
        free_owners o t.free_regions :=
      wsum_swapRemove (coverW o) t.free_regions i hlt
    have hp1 : ({ t with free_regions := swapRemove t.free_regions i }).slots = t.slots := rfl
    have hp2 : ({ t with free_regions := swapRemove t.free_regions i }).free_regions = swapRemove t.free_regions i := rfl
    rw [hp1, hp2]
    omega
  refine ⟨fun o => ?_, fun o hb => ?_⟩
  · have hk := hkey o
    have h1 := hinv.1 o
    have hcov : coverW o ((t.free_regions.getD i (0, 0)).1, q) ≤
        coverW o (t.free_regions.getD i (0, 0)) :=
      coverW_mono_pair hq
    omega
  · have hk := hkey o
    have h2 := hinv.2 o hb
    have hfz : free_owners o t.free_regions = 0 := by
      have he := owners_eq t o
      omega
    have hz : coverW o (t.free_regions.getD i (0, 0)) = 0 :=
      wsum_eq_zero hfz _ (getD_mem hlt (0, 0))
    have hcov : coverW o ((t.free_regions.getD i (0, 0)).1, q) ≤
        coverW o (t.free_regions.getD i (0, 0)) :=
      coverW_mono_pair hq
    omega

theorem freshRegion_bump_path (t : AppTable) (q : Nat) (hinv : RegionInv t) :
    (∀ o, owners t o +
        coverW o (alignUp t.bump_offset USER_ARENA_ALIGN, q) ≤ 1) ∧
    (∀ o, alignUp t.bump_offset USER_ARENA_ALIGN + q ≤ o →
      owners t o + coverW o (alignUp t.bump_offset USER_ARENA_ALIGN, q) = 0) := by
  have hbl := le_alignUp t.bump_offset (a := USER_ARENA_ALIGN) (by decide)
  refine ⟨fun o => ?_, fun o hb => ?_⟩
  · by_cases hc : alignUp t.bump_offset USER_ARENA_ALIGN ≤ o
    · have h2 := hinv.2 o (by omega)
      have h3 := coverW_le_one o (alignUp t.bump_offset USER_ARENA_ALIGN, q)
      omega
    · have hz : coverW o (alignUp t.bump_offset USER_ARENA_ALIGN, q) = 0 :=
        coverW_eq_zero_of_lt (by dsimp only; omega)
      have h1 := hinv.1 o
      omega
  · have h2 := hinv.2 o (by omega)
    have hz : coverW o (alignUp t.bump_offset USER_ARENA_ALIGN, q) = 0 :=
      coverW_eq_zero_of_ge (by dsimp only; omega)
    omega

theorem regionInv_of_fresh {t1 : AppTable} {roff q : Nat}
    (h1 : ∀ o, owners t1 o + coverW o (roff, q) ≤ 1)
    (h2 : ∀ o, t1.bump_offset ≤ o → owners t1 o + coverW o (roff, q) = 0) :
    RegionInv t1 :=
  ⟨fun o => le_trans (Nat.le_add_right _ _) (h1 o),
   fun o hb => by have := h2 o hb; omega⟩

theorem regionInv_install (t1 : AppTable) (j : Nat) (id : AppId)
    (ptr q roff : Nat)
    (hj : find_free_slot t1.slots = some j)
    (hfresh1 : ∀ o, owners t1 o + coverW o (roff, q) ≤ 1)
    (hfresh2 : ∀ o, t1.bump_offset ≤ o → owners t1 o + coverW o (roff, q) = 0) :
    RegionInv { t1 with slots := t1.slots.set j (mkSlot id ptr q roff) } := by
  obtain ⟨hjlt, hjun⟩ := find_free_slot_some hj
  have hkey : ∀ o,
      owners { t1 with slots := t1.slots.set j (mkSlot id ptr q roff) } o =
        owners t1 o + coverW o (roff, q) := by
    intro o
    rw [owners_eq, owners_eq]
    dsimp only
    have hset := slot_owners_set o t1.slots j (mkSlot id ptr q roff) hjlt
    have hold : slotW o (t1.slots.getD j AppSlot.uninit) = 0 := by
      unfold slotW
      rw [hjun]
      rfl
    have hnew : slotW o (mkSlot id ptr q roff) = coverW o (roff, q) := rfl
    rw [hold, hnew] at hset
    omega
  constructor
  · intro o
    rw [hkey o]
    exact hfresh1 o
  · intro o hb
    rw [hkey o]
    exact hfresh2 o hb

theorem regionInv_register (t : AppTable) (id : AppId) (q : Nat)
    (hinv : RegionInv t) : RegionInv (register_app t id q).1 := by
  unfold register_app
  by_cases hlive : (find_slot_by_id t.slots id).isSome = true
  · rw [if_pos hlive]
    exact hinv
  · rw [if_neg hlive]
    by_cases hlt : arena_free_for_new_regions t < q
    · rw [if_pos hlt]
      exact hinv
    · rw [if_neg hlt]
      cases hf : findFit t.free_regions q with
      | some i =>
        rw [alloc_region_free_path hf]
        obtain ⟨hfresh1, hfresh2⟩ := freshRegion_free_path t q i hf hinv
        dsimp only
        split
        · exact regionInv_of_fresh hfresh1 hfresh2
        · rename_i j hj
          exact regionInv_install
            { t with free_regions := swapRemove t.free_regions i } j id
            (t.arena_base + (t.free_regions.getD i (0, 0)).1) q
            (t.free_regions.getD i (0, 0)).1 hj hfresh1 hfresh2
      | none =>
        by_cases hg : alignUp t.bump_offset USER_ARENA_ALIGN + q >
            t.arena_size
        · have hnone : alloc_region t q = none := by
            unfold alloc_region
            rw [hf]
            simp only []
            rw [if_pos hg]
          rw [hnone]
          exact hinv
        · rw [alloc_region_bump_path hf (by omega)]
          obtain ⟨hfresh1, hfresh2⟩ := freshRegion_bump_path t q hinv
          dsimp only
          split
          · exact regionInv_of_fresh hfresh1 hfresh2
          · rename_i j hj
            exact regionInv_install
              { t with bump_offset := alignUp t.bump_offset USER_ARENA_ALIGN + q }
              j id (t.arena_base + alignUp t.bump_offset USER_ARENA_ALIGN) q
              (alignUp t.bump_offset USER_ARENA_ALIGN) hj hfresh1 hfresh2

theorem regionInv_slots_only (t : AppTable) (i : Nat) (s' : AppSlot)
    (h : i < t.slots.length)
    (hw : ∀ o, slotW o s' = slotW o (t.slots.getD i AppSlot.uninit))
    (hinv : RegionInv t) :
    RegionInv { t with slots := t.slots.set i s' } := by
  have hkey : ∀ o, owners { t with slots := t.slots.set i s' } o = owners t o := by
    intro o
    rw [owners_eq, owners_eq]
    dsimp only
    have hset := slot_owners_set o t.slots i s' h
    rw [hw o] at hset
    omega
  constructor
  · intro o
    rw [hkey o]
    exact hinv.1 o
  · intro o hb
    rw [hkey o]
    exact hinv.2 o hb

theorem owners_free_append (t : AppTable) (r : Nat × Nat) (o : Nat) :
    owners { t with free_regions := t.free_regions ++ [r] } o =
      owners t o + coverW o r := by
  rw [owners_eq, owners_eq]
  have hp1 : ({ t with free_regions := t.free_regions ++ [r] }).slots = t.slots := rfl
  have hp2 : ({ t with free_regions := t.free_regions ++ [r] }).free_regions = t.free_regions ++ [r] := rfl
  rw [hp1, hp2]
  have hap : free_owners o (t.free_regions ++ [r]) =
      free_owners o t.free_regions + coverW o r := by
    unfold free_owners
    rw [wsum_append]
    simp only [wsum]
    omega
  omega

theorem regionInv_free_region (t : AppTable) (roff rsz : Nat)
    (hpre1 : ∀ o, owners t o + coverW o (roff, rsz) ≤ 1)
    (hpre2 : ∀ o, t.bump_offset ≤ o → owners t o + coverW o (roff, rsz) = 0) :
    RegionInv (free_region t roff rsz) := by
  unfold free_region
  split
  · constructor
    · intro o
      rw [owners_free_append]
      exact hpre1 o
    · intro o hb
      rw [owners_free_append]
      exact hpre2 o hb
  · exact regionInv_of_fresh hpre1 hpre2

theorem regionInv_unregister (t : AppTable) (id : AppId)
    (hinv : RegionInv t) : RegionInv (unregister_app t id).1 := by
  unfold unregister_app
  cases hf : find_slot_by_id t.slots id with
  | none => exact hinv
  | some i =>
    obtain ⟨hlt, hsid, hsin⟩ := find_slot_by_id_some hf
    dsimp only
    have hkey : ∀ o,
        owners { t with slots := t.slots.set i (clearSlot (t.slots.getD i AppSlot.uninit)) } o +
          coverW o ((t.slots.getD i AppSlot.uninit).offset, (t.slots.getD i AppSlot.uninit).size) = owners t o := by
      intro o
      rw [owners_eq, owners_eq]
      have hset := slot_owners_set o t.slots i
        (clearSlot (t.slots.getD i AppSlot.uninit)) hlt
      have hold : slotW o (t.slots.getD i AppSlot.uninit) =
          coverW o ((t.slots.getD i AppSlot.uninit).offset, (t.slots.getD i AppSlot.uninit).size) := by
        unfold slotW
        rw [hsin]
        rfl
      have hnew : slotW o (clearSlot (t.slots.getD i AppSlot.uninit)) = 0 := rfl
      rw [hold, hnew] at hset
      have hp1 : ({ t with slots := t.slots.set i (clearSlot (t.slots.getD i AppSlot.uninit)) }).slots = t.slots.set i (clearSlot (t.slots.getD i AppSlot.uninit)) := rfl
      have hp2 : ({ t with slots := t.slots.set i (clearSlot (t.slots.getD i AppSlot.uninit)) }).free_regions = t.free_regions := rfl
      rw [hp1, hp2]
      omega
    apply regionInv_free_region
    · intro o
      have hk := hkey o
      have h1 := hinv.1 o
      omega
    · intro o hb
      have h2 := hinv.2 o hb
      have hk := hkey o
      omega

theorem regionInv_app_alloc (t : AppTable) (id : AppId) (size align : Nat)
    (hinv : RegionInv t) : RegionInv (app_alloc t id size align).1 := by
  unfold app_alloc
  cases hf : find_slot_by_id t.slots id with
  | none => exact hinv
  | some i =>
    obtain ⟨hlt, -, -⟩ := find_slot_by_id_some hf
    simp only []
    split
    · exact hinv
    · cases hh : (t.slots.getD i AppSlot.uninit).heap.allocFirstFit size align with
      | none => exact hinv
      | some pr =>
        obtain ⟨h', p⟩ := pr
        simp only []
        exact regionInv_slots_only t i _ hlt (fun o => rfl) hinv

theorem regionInv_app_dealloc (t : AppTable) (id : AppId)
    (ptr size align : Nat)
    (hinv : RegionInv t) : RegionInv (app_dealloc t id ptr size align).1 := by
  unfold app_dealloc
  cases hf : find_slot_by_id t.slots id with
  | none => exact hinv
  | some i =>
    obtain ⟨hlt, -, -⟩ := find_slot_by_id_some hf
    simp only []
    split
    · exact hinv
    · exact regionInv_slots_only t i _ hlt (fun o => rfl) hinv

theorem regionInv_app_stats (t : AppTable) (id : AppId)
    (hinv : RegionInv t) : RegionInv (app_stats t id).1 := by
  unfold app_stats
  cases hf : find_slot_by_id t.slots id with
  | none => exact hinv
  | some i =>
    obtain ⟨hlt, -, -⟩ := find_slot_by_id_some hf
    simp only []
    exact regionInv_slots_only t i _ hlt (fun o => rfl) hinv

theorem regionInv_init (base : Nat) : RegionInv (init_table base) := by
  have hz : ∀ o, owners (init_table base) o = 0 := by
    intro o
    rw [owners_eq]
    have hf : (init_table base).slots.filter (·.inited) = [] := by
      unfold init_table
      dsimp only
      rw [List.filter_replicate]
      rfl
    unfold slot_owners
    rw [hf]
    rfl
  exact ⟨fun o => by rw [hz o]; omega, fun o _ => hz o⟩

theorem regionInv_of_reach {t : AppTable} (h : Reach t) : RegionInv t := by
  induction h with
  | init base => exact regionInv_init base
  | register t id q _ ih => exact regionInv_register t id q ih
  | unregister t id _ ih => exact regionInv_unregister t id ih
  | alloc t id size align _ ih => exact regionInv_app_alloc t id size align ih
  | dealloc t id ptr size align _ ih =>
      exact regionInv_app_dealloc t id ptr size align ih
  | stats t id _ ih => exact regionInv_app_stats t id ih

/-- C2 (amended): in every state reachable from an initialized arena by
register/unregister/alloc/dealloc/stats calls, every byte offset in
`[0, bump_offset)` is owned by at most one accounted region (an
initialized slot's region or a `free_regions` entry) — no double
ownership; offsets owned by none exist (see the counterexample). -/
theorem arena_offsets_owned_at_most_once (t : AppTable) (off : Nat)
    (h : Reach t) (hoff : off < t.bump_offset) : owners t off ≤ 1 :=
  (regionInv_of_reach h).1 off

/-- Witness for `arena_offsets_owned_at_most_once`: the reuse trace's final
state at offset 0 (inside `[0, bump_offset)`). -/
theorem arena_offsets_owned_at_most_once_witness :
    0 < ceR3.bump_offset ∧ owners ceR3 0 ≤ 1 :=
  ⟨by decide,
   arena_offsets_owned_at_most_once ceR3 0
     (Reach.register _ 2 4096
       (Reach.unregister _ 1 (Reach.register _ 1 8192 (Reach.init tBase))))
     (by decide)⟩

theorem isPow2_pos {n : Nat} (h : isPow2 n = true) : 0 < n := by
  unfold isPow2 at h
  rw [Bool.and_eq_true] at h
  have := h.1
  simp only [bne_iff_ne, ne_eq] at this
  omega

theorem layoutValid_align_pos {size align : Nat}
    (h : layoutValid size align = true) : 0 < align := by
  unfold layoutValid at h
  rw [Bool.and_eq_true] at h
  exact isPow2_pos h.1

theorem allocGo_spec {size align : Nat} (hal : 0 < align)
    (holes : List (Nat × Nat)) :
    ∀ (holes' : List (Nat × Nat)) (p : Nat),
    Heap.allocGo holes size align = some (holes', p) →
    ∀ lo hi, (∀ b ∈ holes, lo ≤ b.1 ∧ b.1 + b.2 ≤ hi) →
    (∀ b ∈ holes', lo ≤ b.1 ∧ b.1 + b.2 ≤ hi) ∧
    lo ≤ p ∧ p + size ≤ hi ∧
    sumSnd holes' + size = sumSnd holes := by
  induction holes with
  | nil =>
    intro holes' p h
    simp [Heap.allocGo] at h
  | cons x rest ih =>
    obtain ⟨a, hs⟩ := x
    intro holes' p h lo hi hb
    have hhead := hb (a, hs) (by simp)
    have hrest : ∀ b ∈ rest, lo ≤ b.1 ∧ b.1 + b.2 ≤ hi :=
      fun b hbm => hb b (by simp [hbm])
    have haligned : a ≤ alignUp a align := le_alignUp a hal
    simp only [Heap.allocGo] at h
    split at h
    · rename_i hfit
      simp only [Option.some.injEq, Prod.mk.injEq] at h
      obtain ⟨hl, hp⟩ := h
      subst hl hp
      refine ⟨?_, by omega, by omega, ?_⟩
      · intro b hbm
        simp only [List.mem_append] at hbm
        rcases hbm with (hbm | hbm) | hbm
        · split at hbm
          · simp at hbm
          · simp only [List.mem_singleton] at hbm
            subst hbm
            constructor <;> omega
        · split at hbm
          · simp at hbm
          · simp only [List.mem_singleton] at hbm
            subst hbm
            constructor <;> omega
        · exact hrest b hbm
      · unfold sumSnd
        rw [wsum_append, wsum_append]
        split
        · split
          · rename_i h1 h2
            simp only [wsum]
            omega
          · rename_i h1 h2
            simp only [wsum]
            omega
        · split
          · rename_i h1 h2
            simp only [wsum]
            omega
          · rename_i h1 h2
            simp only [wsum]
            omega
    · rename_i hnofit
      cases hrec : Heap.allocGo rest size align with
      | none =>
        rw [hrec] at h
        cases h
      | some pr =>
        obtain ⟨l, q⟩ := pr
        rw [hrec] at h
        simp only [Option.some.injEq, Prod.mk.injEq] at h
        obtain ⟨hl, hp⟩ := h
        subst hl hp
        obtain ⟨hbl, hq1, hq2, hsum⟩ := ih l q hrec lo hi hrest
        refine ⟨?_, hq1, hq2, ?_⟩
        · intro b hbm
          rcases List.mem_cons.mp hbm with rfl | hbm
          · exact hhead
          · exact hbl b hbm
        · unfold sumSnd at hsum ⊢
          simp only [wsum]
          omega

theorem allocFirstFit_wf {h : Heap} {size align : Nat} {h' : Heap} {p : Nat}
    (ha : h.allocFirstFit size align = some (h', p)) (hal : 0 < align)
    (lo hi : Nat)
    (hholes : ∀ b ∈ h.holes, lo ≤ b.1 ∧ b.1 + b.2 ≤ hi)
    (hallocd : ∀ b ∈ h.allocd, lo ≤ b.1 ∧ b.1 + b.2 ≤ hi) :
    h'.bottom = h.bottom ∧ h'.size = h.size ∧
    (∀ b ∈ h'.holes, lo ≤ b.1 ∧ b.1 + b.2 ≤ hi) ∧
    (∀ b ∈ h'.allocd, lo ≤ b.1 ∧ b.1 + b.2 ≤ hi) ∧
    lo ≤ p ∧ p + size ≤ hi ∧
    sumSnd h'.holes + size = sumSnd h.holes ∧
    sumSnd h'.allocd = sumSnd h.allocd + size := by
  unfold Heap.allocFirstFit at ha
  cases hg : Heap.allocGo h.holes size align with
  | none =>
    rw [hg] at ha
    cases ha
  | some pr =>
    obtain ⟨holes', p'⟩ := pr
    rw [hg] at ha
    simp only [Option.some.injEq, Prod.mk.injEq] at ha
    obtain ⟨hh, hp⟩ := ha
    rw [hp] at hg hh
    obtain ⟨hb', hp1, hp2, hsum⟩ := allocGo_spec hal h.holes holes' p hg lo hi hholes
    subst hh
    refine ⟨rfl, rfl, hb', ?_, hp1, hp2, hsum, ?_⟩
    · intro b hbm
      rcases List.mem_cons.mp hbm with rfl | hbm
      · exact ⟨hp1, hp2⟩
      · exact hallocd b hbm
    · unfold sumSnd
      simp only [wsum]
      omega

theorem removeOne_subset {l : List (Nat × Nat)} {x b : Nat × Nat}
    (h : b ∈ Heap.removeOne l x) : b ∈ l := by
  induction l with
  | nil => simpa [Heap.removeOne] using h
  | cons y rest ih =>
    unfold Heap.removeOne at h
    split at h
    · exact List.mem_cons_of_mem _ h
    · rcases List.mem_cons.mp h with rfl | hbm
      · exact List.mem_cons_self _ _
      · exact List.mem_cons_of_mem _ (ih hbm)

theorem sumSnd_removeOne {l : List (Nat × Nat)} {x : Nat × Nat} (h : x ∈ l) :
    sumSnd (Heap.removeOne l x) + x.2 = sumSnd l := by
  induction l with
  | nil => simp at h
  | cons y rest ih =>
    unfold Heap.removeOne
    split
    · rename_i heq
      subst heq
      unfold sumSnd
      simp only [wsum]
      omega
    · rename_i hne
      have hxm : x ∈ rest := by
        rcases List.mem_cons.mp h with rfl | hm
        · exact absurd rfl hne
        · exact hm
      have := ih hxm
      unfold sumSnd at *
      simp only [wsum]
      omega

theorem slotWF_mkSlot (id : AppId) (ptr q roff : Nat) :
    SlotWF (mkSlot id ptr q roff) := by
  refine ⟨rfl, rfl, ?_, ?_, ?_⟩
  · unfold mkSlot Heap.init sumSnd
    simp [wsum]
  · intro b hbm
    simp only [mkSlot, Heap.init, List.mem_singleton] at hbm
    subst hbm
    dsimp only [mkSlot]
    omega
  · intro b hbm
    simp [mkSlot, Heap.init] at hbm

theorem heapInv_set {t : AppTable} {j : Nat} {s' : AppSlot}
    (hinv : HeapInv t) (hs' : s'.inited = true → SlotWF s') :
    HeapInv { t with slots := t.slots.set j s' } := by
  intro s hs hin
  rcases List.mem_or_eq_of_mem_set hs with h | rfl
  · exact hinv s h hin
  · exact hs' hin

theorem heapInv_free_region {t : AppTable} (a b : Nat)
    (hinv : HeapInv t) : HeapInv (free_region t a b) := by
  unfold free_region
  split
  · exact hinv
  · exact hinv

theorem heapInv_register (t : AppTable) (id : AppId) (q : Nat)
    (hinv : HeapInv t) : HeapInv (register_app t id q).1 := by
  unfold register_app
  by_cases hlive : (find_slot_by_id t.slots id).isSome = true
  · rw [if_pos hlive]
    exact hinv
  · rw [if_neg hlive]
    by_cases hlt : arena_free_for_new_regions t < q
    · rw [if_pos hlt]
      exact hinv
    · rw [if_neg hlt]
      cases hf : findFit t.free_regions q with
      | some i =>
        rw [alloc_region_free_path hf]
        dsimp only
        split
        · exact hinv
        · exact heapInv_set hinv (fun _ => slotWF_mkSlot _ _ _ _)
      | none =>
        by_cases hg : alignUp t.bump_offset USER_ARENA_ALIGN + q >
            t.arena_size
        · have hnone : alloc_region t q = none := by
            unfold alloc_region
            rw [hf]
            simp only []
            rw [if_pos hg]
          rw [hnone]
          exact hinv
        · rw [alloc_region_bump_path hf (by omega)]
          dsimp only
          split
          · exact hinv
          · exact heapInv_set hinv (fun _ => slotWF_mkSlot _ _ _ _)

theorem heapInv_unregister (t : AppTable) (id : AppId)
    (hinv : HeapInv t) : HeapInv (unregister_app t id).1 := by
  unfold unregister_app
  cases hf : find_slot_by_id t.slots id with
  | none => exact hinv
  | some i =>
    dsimp only
    apply heapInv_free_region
    apply heapInv_set hinv
    intro hin
    exact absurd hin (by simp [clearSlot])

theorem heapInv_app_alloc (t : AppTable) (id : AppId) (size align : Nat)
    (hal : 0 < align)
    (hinv : HeapInv t) : HeapInv (app_alloc t id size align).1 := by
  unfold app_alloc
  cases hf : find_slot_by_id t.slots id with
  | none => exact hinv
  | some i =>
    obtain ⟨hlt, -, hin⟩ := find_slot_by_id_some hf
    dsimp only
    split
    · exact hinv
    · cases hh : (t.slots.getD i AppSlot.uninit).heap.allocFirstFit size align with
      | none => exact hinv
      | some pr =>
        obtain ⟨h', p⟩ := pr
        dsimp only
        apply heapInv_set hinv
        intro _
        obtain ⟨hb, hsz, hsum, hbh, hba⟩ :=
          hinv (t.slots.getD i AppSlot.uninit) (getD_mem hlt _) hin
        obtain ⟨wb, wsz, wh, wa, wp1, wp2, wsum1, wsum2⟩ :=
          allocFirstFit_wf hh hal
            (t.slots.getD i AppSlot.uninit).start
            ((t.slots.getD i AppSlot.uninit).start +
              (t.slots.getD i AppSlot.uninit).size) hbh hba
        exact ⟨wb.trans hb, wsz.trans hsz, by dsimp only; omega, wh, wa⟩

theorem heapInv_app_dealloc (t : AppTable) (id : AppId)
    (ptr size align : Nat)
    (hctr : (ptr, size) ∈ slotAllocd t id ∨
      (app_dealloc t id ptr size align).2 = false)
    (hinv : HeapInv t) : HeapInv (app_dealloc t id ptr size align).1 := by
  by_cases hres : (app_dealloc t id ptr size align).2 = false
  · have hunch : (app_dealloc t id ptr size align).1 = t := by
      unfold app_dealloc at hres ⊢
      cases hf : find_slot_by_id t.slots id with
      | none => rfl
      | some i =>
        rw [hf] at hres
        dsimp only at hres ⊢
        split at hres
        · rename_i hout
          rw [if_pos hout]
        · simp at hres
    rw [hunch]
    exact hinv
  · have hmem : (ptr, size) ∈ slotAllocd t id := by
      rcases hctr with h | h
      · exact h
      · exact absurd h hres
    unfold app_dealloc at hres ⊢
    cases hf : find_slot_by_id t.slots id with
    | none => exact hinv
    | some i =>
      rw [hf] at hres
      obtain ⟨hlt, -, hin⟩ := find_slot_by_id_some hf
      dsimp only at hres ⊢
      split
      · exact hinv
      · rename_i hrange
        apply heapInv_set hinv
        intro _
        obtain ⟨hb, hsz, hsum, hbh, hba⟩ :=
          hinv (t.slots.getD i AppSlot.uninit) (getD_mem hlt _) hin
        have hmem' : (ptr, size) ∈ (t.slots.getD i AppSlot.uninit).heap.allocd := by
          unfold slotAllocd at hmem
          rw [hf] at hmem
          exact hmem
        have hrm := sumSnd_removeOne hmem'
        have hbnd := hba (ptr, size) hmem'
        refine ⟨hb, hsz, ?_, ?_, ?_⟩
        · show sumSnd ((t.slots.getD i AppSlot.uninit).heap.dealloc ptr size).holes +
            sumSnd ((t.slots.getD i AppSlot.uninit).heap.dealloc ptr size).allocd =
            (t.slots.getD i AppSlot.uninit).size
          unfold Heap.dealloc
          dsimp only
          unfold sumSnd at hsum hrm ⊢
          simp only [wsum]
          omega
        · intro b hbm
          unfold Heap.dealloc at hbm
          dsimp only at hbm
          rcases List.mem_cons.mp hbm with rfl | hbm
          · exact hbnd
          · exact hbh b hbm
        · intro b hbm
          unfold Heap.dealloc at hbm
          dsimp only at hbm
          exact hba b (removeOne_subset hbm)

theorem heapInv_app_stats (t : AppTable) (id : AppId)
    (hinv : HeapInv t) : HeapInv (app_stats t id).1 := by
  unfold app_stats
  cases hf : find_slot_by_id t.slots id with
  | none => exact hinv
  | some i =>
    obtain ⟨hlt, -, hin⟩ := find_slot_by_id_some hf
    dsimp only
    apply heapInv_set hinv
    intro _
    exact hinv (t.slots.getD i AppSlot.uninit) (getD_mem hlt _) hin

theorem heapInv_init (base : Nat) : HeapInv (init_table base) := by
  intro s hs hin
  have := List.eq_of_mem_replicate hs
  subst this
  cases hin

theorem heapInv_of_reachC {t : AppTable} (h : ReachC t) : HeapInv t := by
  induction h with
  | init base => exact heapInv_init base
  | register t id q _ ih => exact heapInv_register t id q ih
  | unregister t id _ ih => exact heapInv_unregister t id ih
  | alloc t id size align hlv _ ih =>
      exact heapInv_app_alloc t id size align (layoutValid_align_pos hlv) ih
  | dealloc t id ptr size align hlv hctr _ ih =>
      exact heapInv_app_dealloc t id ptr size align hctr ih
  | stats t id _ ih => exact heapInv_app_stats t id ih

/-- C7: `heap_stats` always returns `used + free = total` (it recomputes
`total` as their sum), and in every contract-respecting reachable arena
state, every `app_stats(id)` result satisfies `used + free = total`
(the slot's recomputed free bytes never exceed its region size). -/
theorem stats_used_plus_free_eq_total (k : KernelState) (t : AppTable)
    (id : AppId) (st : AppHeapStats)
    (hreach : ReachC t)
    (hst : (app_stats t id).2 = some st) :
    (heap_stats k).2.used + (heap_stats k).2.free = (heap_stats k).2.total ∧
    st.used + st.free = st.total := by
  constructor
  · rfl
  · have hinv := heapInv_of_reachC hreach
    unfold app_stats at hst
    cases hf : find_slot_by_id t.slots id with
    | none =>
      rw [hf] at hst
      cases hst
    | some i =>
      rw [hf] at hst
      obtain ⟨hlt, -, hin⟩ := find_slot_by_id_some hf
      obtain ⟨-, -, hsum, -, -⟩ :=
        hinv (t.slots.getD i AppSlot.uninit) (getD_mem hlt _) hin
      dsimp only at hst
      simp only [Option.some.injEq] at hst
      subst hst
      dsimp only
      unfold Heap.freeBytes
      omega

/-- Witness for `stats_used_plus_free_eq_total`: a fresh kernel heap and
the arena after `register_app(42, 65536)`. -/
theorem stats_used_plus_free_eq_total_witness :
    (app_stats scnA1.1 42).2 = some ⟨0, 65536, 65536, 0, 0, 0⟩ ∧
    ((heap_stats ⟨Heap.init 0 HEAP_SIZE, HeapStats.zero⟩).2.used +
       (heap_stats ⟨Heap.init 0 HEAP_SIZE, HeapStats.zero⟩).2.free =
       (heap_stats ⟨Heap.init 0 HEAP_SIZE, HeapStats.zero⟩).2.total ∧
     (⟨0, 65536, 65536, 0, 0, 0⟩ : AppHeapStats).used +
       (⟨0, 65536, 65536, 0, 0, 0⟩ : AppHeapStats).free =
       (⟨0, 65536, 65536, 0, 0, 0⟩ : AppHeapStats).total) :=
  ⟨by decide,
   stats_used_plus_free_eq_total ⟨Heap.init 0 HEAP_SIZE, HeapStats.zero⟩
     scnA1.1 42 ⟨0, 65536, 65536, 0, 0, 0⟩
     (ReachC.register _ 42 65536 (ReachC.init tBase)) (by decide)⟩

/-- C8: in every contract-respecting reachable state, whenever
`app_alloc(id, size, align)` (with a valid layout) returns a non-null
pointer `p`, both `p` and `p + size` lie within the app's granted region
`[region_start, region_start + region_size]`. -/
theorem app_alloc_within_region (t : AppTable) (id : AppId)
    (size align p : Nat)
    (hreach : ReachC t)
    (hlv : layoutValid size align = true)
    (hp : (app_alloc t id size align).2 = some p) :
    ∃ i, find_slot_by_id t.slots id = some i ∧
      (t.slots.getD i AppSlot.uninit).start ≤ p ∧
      p + size ≤ (t.slots.getD i AppSlot.uninit).start +
        (t.slots.getD i AppSlot.uninit).size := by
  have hinv := heapInv_of_reachC hreach
  have hal := layoutValid_align_pos hlv
  unfold app_alloc at hp
  cases hf : find_slot_by_id t.slots id with
  | none =>
    rw [hf] at hp
    cases hp
  | some i =>
    rw [hf] at hp
    obtain ⟨hlt, -, hin⟩ := find_slot_by_id_some hf
    dsimp only at hp
    split at hp
    · cases hp
    · cases hh : (t.slots.getD i AppSlot.uninit).heap.allocFirstFit size align with
      | none =>
        rw [hh] at hp
        cases hp
      | some pr =>
        obtain ⟨h', p'⟩ := pr
        rw [hh] at hp
        dsimp only at hp
        simp only [Option.some.injEq] at hp
        subst hp
        obtain ⟨-, -, hsum, hbh, hba⟩ :=
          hinv (t.slots.getD i AppSlot.uninit) (getD_mem hlt _) hin
        obtain ⟨-, -, -, -, wp1, wp2, -, -⟩ :=
          allocFirstFit_wf hh hal
            (t.slots.getD i AppSlot.uninit).start
            ((t.slots.getD i AppSlot.uninit).start +
              (t.slots.getD i AppSlot.uninit).size) hbh hba
        exact ⟨i, rfl, wp1, wp2⟩

/-- Witness for `app_alloc_within_region`: after `register_app(42, 65536)`,
`app_alloc(42, 4096, 8)` returns the region's base address and the block
lies inside the granted region. -/
theorem app_alloc_within_region_witness :
    layoutValid 4096 8 = true ∧
    (app_alloc scnA1.1 42 4096 8).2 = some tBase ∧
    (∃ i, find_slot_by_id scnA1.1.slots 42 = some i ∧
      (scnA1.1.slots.getD i AppSlot.uninit).start ≤ tBase ∧
      tBase + 4096 ≤ (scnA1.1.slots.getD i AppSlot.uninit).start +
        (scnA1.1.slots.getD i AppSlot.uninit).size) :=
  ⟨by decide, by decide,
   app_alloc_within_region scnA1.1 42 4096 8 tBase
     (ReachC.register _ 42 65536 (ReachC.init tBase)) (by decide) (by decide)⟩

end Stratos
